import Mathlib

/-!
Shallow embedding of the `wolfram-expr` crate: the expression data model
(`src/lib.rs`, `src/conversion.rs`, `src/number/mod.rs`), the symbol grammar
(`src/symbol/parse.rs`, `src/symbol.rs`) and the WXF binary encoder
(`src/wxf/mod.rs`).  Strings and symbol texts are modelled by their byte
lists; an `i64` is an `Int` reduced modulo `2^64` at the encoding boundary;
an `f64` (never NaN, per `ordered_float::NotNan`) is modelled by its 64-bit
IEEE-754 bit pattern.
-/

/-- `ExprKind`/`Expr` from the source: a tagged tree.  The reference-counted
indirection of the Rust `Expr` handle is value-transparent (equality and the
encoder act on the pointed-to `ExprKind`), so the tree is modelled directly.
`real` carries the IEEE-754 bit pattern of the `NotNan<f64>` payload;
`string` and `symbol` carry the UTF-8 bytes of their text. -/
inductive Expr where
  | integer (n : Int)
  | real (bits : Nat)
  | string (s : List Nat)
  | symbol (s : List Nat)
  | normal (head : Expr) (contents : List Expr)

/-- Loop body of the LEB128 encoder, made structural on a fuel bound so that
the kernel can evaluate it; `fuel = n` always suffices since the value
shrinks by a factor of 128 each step. -/
def varintF : Nat → Nat → List Nat
  | 0, n => [n % 128]
  | f + 1, n => if n < 128 then [n] else (n % 128 + 128) :: varintF f (n / 128)

theorem varintF_congr : ∀ f1 f2 n, n ≤ f1 → n ≤ f2 → varintF f1 n = varintF f2 n := by
  intro f1
  induction f1 using Nat.strong_induction_on with
  | _ f1 ih =>
    intro f2 n h1 h2
    match f1, f2 with
    | 0, 0 => rfl
    | 0, g + 1 =>
        have hn : n = 0 := Nat.le_zero.mp h1
        subst hn
        simp [varintF]
    | a + 1, 0 =>
        have hn : n = 0 := Nat.le_zero.mp h2
        subst hn
        simp [varintF]
    | a + 1, b + 1 =>
        simp only [varintF]
        by_cases h : n < 128
        · rw [if_pos h, if_pos h]
        · rw [if_neg h, if_neg h]
          have hdiv : n / 128 < n := Nat.div_lt_self (by omega) (by omega)
          rw [ih a (by omega) b (n / 128) (by omega) (by omega)]

/-- `integer_encoding::VarInt::encode_var_vec` for unsigned integers:
7 data bits per byte, little-endian groups, continuation bit `0x80` on all
but the final byte. -/
def encodeVarVec (n : Nat) : List Nat := varintF n n

theorem encodeVarVec_unfold (n : Nat) :
    encodeVarVec n =
      if n < 128 then [n] else (n % 128 + 128) :: encodeVarVec (n / 128) := by
  by_cases h : n < 128
  · rw [if_pos h]
    match n with
    | 0 => rfl
    | m + 1 => simp [encodeVarVec, varintF, h]
  · rw [if_neg h]
    match n, h with
    | m + 1, h =>
        have hdiv : (m + 1) / 128 < m + 1 := Nat.div_lt_self (by omega) (by omega)
        simp only [encodeVarVec, varintF, if_neg h]
        rw [varintF_congr m ((m + 1) / 128) ((m + 1) / 128) (by omega) (by omega)]

/-- Little-endian base-256 digits, fixed width `k` (`to_le_bytes`). -/
def leBytes : Nat → Nat → List Nat
  | 0, _ => []
  | k + 1, v => v % 256 :: leBytes k (v / 256)

/-- The `u64` bit pattern of an `i64` value (`i64::to_le_bytes` operates on
the two's complement representation). -/
def i64bits (n : Int) : Nat := (n % (2 ^ 64 : Nat)).toNat

mutual
/-- `Expr::write_internal` / `Symbol::write_internal` /
`Normal::write_internal` from `src/wxf/mod.rs`, with the output `Vec<u8>`
threaded as an accumulator exactly as the `&mut Vec` is in the source. -/
def writeInternal : Expr → List Nat → List Nat
  | .integer n, out => (out ++ [76]) ++ leBytes 8 (i64bits n)
  | .real bits, out => (out ++ [114]) ++ leBytes 8 bits
  | .string s, out => ((out ++ [83]) ++ encodeVarVec s.length) ++ s
  | .symbol s, out => ((out ++ [115]) ++ encodeVarVec s.length) ++ s
  | .normal head contents, out =>
      writeContents contents
        (writeInternal head ((out ++ [102]) ++ encodeVarVec contents.length))

/-- The `for v in self.contents.iter()` loop of `Normal::write_internal`. -/
def writeContents : List Expr → List Nat → List Nat
  | [], out => out
  | v :: rest, out => writeContents rest (writeInternal v out)
end

/-- `Expr::as_wxf`: the header bytes `"8:"` then the node encoding. -/
def asWxf (e : Expr) : List Nat := writeInternal e [56, 58]

/-- `Expr::as_wxf_compressed`, with the zlib compressor abstracted as a
function argument (the source uses `flate2::ZlibEncoder` at compression
level 9; the write into the in-memory encoder cannot fail, so the `"8C:"`
header bytes are always emitted before the compressed stream). -/
def asWxfCompressed (compress : List Nat → List Nat) (e : Expr) : List Nat :=
  let input := writeInternal e []
  ([56, 67, 58] : List Nat) ++ compress input

mutual
/-- The recursive node encoding as the spec describes it: one tag byte,
then a type-specific payload, built by plain concatenation. -/
def nodeEnc : Expr → List Nat
  | .integer n => 76 :: leBytes 8 (i64bits n)
  | .real bits => 114 :: leBytes 8 bits
  | .string s => 83 :: (encodeVarVec s.length ++ s)
  | .symbol s => 115 :: (encodeVarVec s.length ++ s)
  | .normal head contents =>
      102 :: (encodeVarVec contents.length ++ nodeEnc head ++ nodeEncList contents)

/-- Concatenated encodings of a `Normal`'s arguments, in argument order. -/
def nodeEncList : List Expr → List Nat
  | [] => []
  | v :: rest => nodeEnc v ++ nodeEncList rest
end

mutual
theorem writeInternal_eq (e : Expr) (out : List Nat) :
    writeInternal e out = out ++ nodeEnc e := by
  cases e with
  | integer n => simp [writeInternal, nodeEnc]
  | real bits => simp [writeInternal, nodeEnc]
  | string s => simp [writeInternal, nodeEnc]
  | symbol s => simp [writeInternal, nodeEnc]
  | normal head contents =>
      rw [writeInternal, nodeEnc, writeInternal_eq head,
        writeContents_eq contents]
      simp

theorem writeContents_eq (l : List Expr) (out : List Nat) :
    writeContents l out = out ++ nodeEncList l := by
  cases l with
  | nil => simp [writeContents, nodeEncList]
  | cons v rest =>
      rw [writeContents, nodeEncList, writeInternal_eq v, writeContents_eq rest]
      simp
end

theorem asWxf_eq (e : Expr) : asWxf e = [56, 58] ++ nodeEnc e := by
  rw [asWxf, writeInternal_eq]

theorem nodeEncList_eq_join (l : List Expr) :
    nodeEncList l = (l.map nodeEnc).flatten := by
  induction l with
  | nil => rfl
  | cons v rest ih => rw [nodeEncList, ih]; simp

/-- The byte list of an ASCII string literal (for ASCII text these are
exactly its UTF-8 bytes). -/
def asciiBytes (s : String) : List Nat := s.toList.map Char.toNat

/-- C1: `as_wxf` emits the two ASCII bytes `"8:"` followed by the recursive
node encoding, where an Integer atom is `'L'` plus the 8-byte little-endian
i64, a Real atom is `'r'` plus the 8 bytes of the double, a String atom is
`'S'` plus a varint byte-length plus the raw bytes, a Symbol atom is `'s'`
plus a varint byte-length plus the bytes of the qualified symbol text, and a
Normal node is `'f'` plus a varint argument count (head not counted), then
the head's full sub-node encoding, then each argument's encoding in order;
in particular `normal(symbol("System`Sin"), [Expr::from(1)])` encodes to
`"8:"` ++ `'f'` ++ varint 1 ++ `'s'` ++ varint 10 ++ `"System`Sin"` ++ `'L'`
++ 1 as little-endian i64. -/
theorem C1_wxf_uncompressed_format :
    (∀ e, asWxf e = asciiBytes "8:" ++ nodeEnc e)
    ∧ (∀ n, nodeEnc (.integer n) = 76 :: leBytes 8 (i64bits n))
    ∧ (∀ bits, nodeEnc (.real bits) = 114 :: leBytes 8 bits)
    ∧ (∀ s, nodeEnc (.string s) = 83 :: (encodeVarVec s.length ++ s))
    ∧ (∀ s, nodeEnc (.symbol s) = 115 :: (encodeVarVec s.length ++ s))
    ∧ (∀ h args, nodeEnc (.normal h args) =
        102 :: (encodeVarVec args.length ++ nodeEnc h ++ (args.map nodeEnc).flatten))
    ∧ asWxf (.normal (.symbol (asciiBytes "System`Sin")) [.integer 1]) =
        asciiBytes "8:" ++ [102] ++ encodeVarVec 1 ++ [115] ++ encodeVarVec 10 ++
          asciiBytes "System`Sin" ++ [76] ++ leBytes 8 (i64bits 1)
    ∧ asWxf (.normal (.symbol (asciiBytes "System`Sin")) [.integer 1]) =
        [56, 58, 102, 1, 115, 10, 83, 121, 115, 116, 101, 109, 96, 83, 105, 110,
          76, 1, 0, 0, 0, 0, 0, 0, 0] := by
  refine ⟨?_, fun _ => rfl, fun _ => rfl, fun _ => rfl, fun _ => rfl, ?_, ?_, ?_⟩
  · intro e
    rw [asWxf_eq]; rfl
  · intro h args
    rw [nodeEnc, nodeEncList_eq_join]
  · decide
  · decide

/-- C4 counterexample: the compressed output does not begin with a 2-byte
header equal to the three ASCII bytes `"8C:"` (taking 2 bytes of the output
can never yield the 3-byte sequence).  Instantiated at the identity
compressor and the expression `Expr::from(1)`. -/
theorem C4_counterexample :
    (asWxfCompressed id (.integer 1)).take 2 ≠ asciiBytes "8C:" := by decide

/-- C4 (amended): for every compressor function and every expression, the
compressed encoding is the three ASCII bytes `"8C:"` followed by the
compressed stream of the expression's node encoding — i.e. of the
uncompressed `as_wxf` encoding with its own 2-byte `"8:"` header removed
(the compressor itself, zlib at level 9 in the source, is abstracted as a
function argument). -/
theorem C4_compressed_format (compress : List Nat → List Nat) (e : Expr) :
    asWxfCompressed compress e = asciiBytes "8C:" ++ compress ((asWxf e).drop 2) := by
  have h : (asWxf e).drop 2 = writeInternal e [] := by
    rw [asWxf_eq, writeInternal_eq]
    simp
  rw [asWxfCompressed, h]
  rfl

/-- `f64::is_nan` on the 64-bit pattern: exponent all ones, mantissa
nonzero. -/
def isNanBits (b : Nat) : Bool := (b / 2 ^ 52) % 2 ^ 11 == 2047 && b % 2 ^ 52 != 0

/-- IEEE-754 `==` on the bit patterns of two non-NaN doubles: equal bit
patterns denote equal values, and additionally `+0.0` (pattern 0) equals
`-0.0` (pattern `2^63`).  This is the comparison performed by the derived
`PartialEq` of `ExprKind` on its `Real(NotNan<f64>)` variant. -/
def f64eqBits (a b : Nat) : Bool :=
  a == b || ((a == 0 || a == 2 ^ 63) && (b == 0 || b == 2 ^ 63))

mutual
/-- Structural equality of two expression trees as computed by the derived
Rust `PartialEq` for `Expr`/`ExprKind` (deep value equality through the
shared pointers, with IEEE `==` on the real payloads). -/
def rustEq : Expr → Expr → Bool
  | .integer a, .integer b => a == b
  | .real a, .real b => f64eqBits a b
  | .string a, .string b => a == b
  | .symbol a, .symbol b => a == b
  | .normal h1 c1, .normal h2 c2 => rustEq h1 h2 && rustEqList c1 c2
  | _, _ => false

/-- Pointwise structural equality of two argument vectors. -/
def rustEqList : List Expr → List Expr → Bool
  | [], [] => true
  | e1 :: l1, e2 :: l2 => rustEq e1 e2 && rustEqList l1 l2
  | _, _ => false
end

mutual
/-- The modeled value set: integers within `i64`, non-NaN real bit
patterns, byte lists that are actual bytes. -/
def wfExpr : Expr → Bool
  | .integer n => decide (-(2 ^ 63 : Int) ≤ n) && decide (n < 2 ^ 63)
  | .real bits => decide (bits < 2 ^ 64) && !isNanBits bits
  | .string s => s.all (fun b => b < 256)
  | .symbol s => s.all (fun b => b < 256)
  | .normal h c => wfExpr h && wfList c

/-- `wfExpr` on every element of an argument vector. -/
def wfList : List Expr → Bool
  | [] => true
  | e :: rest => wfExpr e && wfList rest
end

/-- C3 counterexample: `Expr::real(0.0)` and `Expr::real(-0.0)` (bit
pattern `2^63`) are structurally equal (`0.0 == -0.0` under the derived
`PartialEq`), both are non-NaN members of the modeled value set, yet their
uncompressed encodings differ in the sign byte — so encoding two
structurally equal `Expr` values does not always yield byte-identical
output. -/
theorem C3_counterexample :
    rustEq (.real 0) (.real (2 ^ 63)) = true
    ∧ wfExpr (.real 0) = true ∧ wfExpr (.real (2 ^ 63)) = true
    ∧ asWxf (.real 0) ≠ asWxf (.real (2 ^ 63)) := by decide

theorem leBytes_append_inj :
    ∀ k a b (r1 r2 : List Nat), a < 256 ^ k → b < 256 ^ k →
      leBytes k a ++ r1 = leBytes k b ++ r2 → a = b ∧ r1 = r2 := by
  intro k
  induction k with
  | zero =>
      intro a b r1 r2 ha hb h
      simp only [pow_zero, Nat.lt_one_iff] at ha hb
      simp [leBytes] at h
      exact ⟨by omega, h⟩
  | succ k ih =>
      intro a b r1 r2 ha hb h
      simp only [leBytes, List.cons_append, List.cons.injEq] at h
      obtain ⟨hmod, htail⟩ := h
      have hda : a / 256 < 256 ^ k := by
        rw [Nat.div_lt_iff_lt_mul (by omega)]
        calc a < 256 ^ (k + 1) := ha
        _ = 256 ^ k * 256 := by ring
      have hdb : b / 256 < 256 ^ k := by
        rw [Nat.div_lt_iff_lt_mul (by omega)]
        calc b < 256 ^ (k + 1) := hb
        _ = 256 ^ k * 256 := by ring
      obtain ⟨hdiv, hrest⟩ := ih (a / 256) (b / 256) r1 r2 hda hdb htail
      refine ⟨?_, hrest⟩
      omega

theorem varint_append_inj :
    ∀ a b (r1 r2 : List Nat),
      encodeVarVec a ++ r1 = encodeVarVec b ++ r2 → a = b ∧ r1 = r2 := by
  intro a
  induction a using Nat.strong_induction_on with
  | _ a ih =>
    intro b r1 r2 h
    rw [encodeVarVec_unfold a, encodeVarVec_unfold b] at h
    by_cases ha : a < 128
    · by_cases hb : b < 128
      · simp only [if_pos ha, if_pos hb, List.cons_append, List.nil_append,
          List.cons.injEq] at h
        exact ⟨h.1, h.2⟩
      · simp only [if_pos ha, if_neg hb, List.cons_append, List.nil_append,
          List.cons.injEq] at h
        omega
    · by_cases hb : b < 128
      · simp only [if_neg ha, if_pos hb, List.cons_append, List.nil_append,
          List.cons.injEq] at h
        omega
      · simp only [if_neg ha, if_neg hb, List.cons_append, List.cons.injEq] at h
        obtain ⟨hmod, htail⟩ := h
        have hda : a / 128 < a := Nat.div_lt_self (by omega) (by omega)
        obtain ⟨hdiv, hrest⟩ := ih (a / 128) hda (b / 128) r1 r2 htail
        refine ⟨?_, hrest⟩
        omega

theorem i64bits_lt (n : Int) : i64bits n < 2 ^ 64 := by
  have h1 : (0 : Int) < (2 ^ 64 : Nat) := by norm_num
  have h2 := Int.emod_lt_of_pos n h1
  have h3 := Int.emod_nonneg n (by norm_num : ((2 ^ 64 : Nat) : Int) ≠ 0)
  rw [i64bits]
  omega

theorem i64bits_inj (a b : Int) (ha1 : -(2 ^ 63 : Int) ≤ a) (ha2 : a < 2 ^ 63)
    (hb1 : -(2 ^ 63 : Int) ≤ b) (hb2 : b < 2 ^ 63) (h : i64bits a = i64bits b) :
    a = b := by
  have h3 := Int.emod_nonneg a (by norm_num : ((2 ^ 64 : Nat) : Int) ≠ 0)
  have h4 := Int.emod_nonneg b (by norm_num : ((2 ^ 64 : Nat) : Int) ≠ 0)
  rw [i64bits, i64bits] at h
  have hmod : a % ((2 ^ 64 : Nat) : Int) = b % ((2 ^ 64 : Nat) : Int) := by omega
  have hdvd : ((2 ^ 64 : Nat) : Int) ∣ a - b := by
    rw [Int.dvd_iff_emod_eq_zero, Int.sub_emod, hmod]
    simp
  obtain ⟨c, hc⟩ := hdvd
  have : ((2 ^ 64 : Nat) : Int) = (18446744073709551616 : Int) := by norm_num
  rw [this] at hc
  omega

theorem sizeOf_head_lt (h : Expr) (c : List Expr) :
    sizeOf h < sizeOf (Expr.normal h c) := by
  simp only [Expr.normal.sizeOf_spec]
  omega

theorem sizeOf_arg_lt (e : Expr) (h : Expr) (c : List Expr) (hmem : e ∈ c) :
    sizeOf e < sizeOf (Expr.normal h c) := by
  have h1 := List.sizeOf_lt_of_mem hmem
  simp only [Expr.normal.sizeOf_spec]
  omega

theorem nodeEncList_append_inj_aux :
    ∀ (l1 l2 : List Expr) (r1 r2 : List Nat),
      (∀ e ∈ l1, ∀ (e' : Expr) (r1' r2' : List Nat), wfExpr e = true →
        wfExpr e' = true → nodeEnc e ++ r1' = nodeEnc e' ++ r2' →
        e = e' ∧ r1' = r2') →
      l1.length = l2.length → wfList l1 = true → wfList l2 = true →
      nodeEncList l1 ++ r1 = nodeEncList l2 ++ r2 → l1 = l2 ∧ r1 = r2 := by
  intro l1
  induction l1 with
  | nil =>
      intro l2 r1 r2 _ hlen _ _ h
      cases l2 with
      | nil => exact ⟨rfl, by simpa [nodeEncList] using h⟩
      | cons e2 t2 => simp at hlen
  | cons e1 t1 ih =>
      intro l2 r1 r2 hih hlen w1 w2 h
      cases l2 with
      | nil => simp at hlen
      | cons e2 t2 =>
          simp only [nodeEncList, List.append_assoc] at h
          simp only [wfList, Bool.and_eq_true] at w1 w2
          obtain ⟨he, hrest⟩ :=
            hih e1 (List.mem_cons_self e1 t1) e2 _ _ w1.1 w2.1 h
          obtain ⟨ht, hr⟩ :=
            ih t2 r1 r2 (fun e hm => hih e (List.mem_cons_of_mem e1 hm))
              (by simpa using hlen) w1.2 w2.2 hrest
          exact ⟨by rw [he, ht], hr⟩

theorem nodeEnc_append_inj :
    ∀ (N : Nat) (e1 e2 : Expr) (r1 r2 : List Nat), sizeOf e1 < N →
      wfExpr e1 = true → wfExpr e2 = true →
      nodeEnc e1 ++ r1 = nodeEnc e2 ++ r2 → e1 = e2 ∧ r1 = r2 := by
  intro N
  induction N with
  | zero => intro e1 _ _ _ hs; omega
  | succ N ih =>
    have h256 : (256 : Nat) ^ 8 = 2 ^ 64 := by norm_num
    intro e1 e2 r1 r2 hs w1 w2 h
    cases e1 with
    | integer a =>
        cases e2 with
        | integer b =>
            simp only [nodeEnc, List.cons_append, List.cons_eq_cons, true_and] at h
            simp only [wfExpr, Bool.and_eq_true, decide_eq_true_eq] at w1 w2
            obtain ⟨hv, hr⟩ := leBytes_append_inj 8 _ _ r1 r2
              (h256 ▸ i64bits_lt a) (h256 ▸ i64bits_lt b) h
            exact ⟨by rw [i64bits_inj a b w1.1 w1.2 w2.1 w2.2 hv], hr⟩
        | real b => simp [nodeEnc] at h
        | string s => simp [nodeEnc] at h
        | symbol s => simp [nodeEnc] at h
        | normal h2 c2 => simp [nodeEnc] at h
    | real a =>
        cases e2 with
        | integer b => simp [nodeEnc] at h
        | real b =>
            simp only [nodeEnc, List.cons_append, List.cons_eq_cons, true_and] at h
            simp only [wfExpr, Bool.and_eq_true, decide_eq_true_eq] at w1 w2
            obtain ⟨hv, hr⟩ := leBytes_append_inj 8 _ _ r1 r2
              (h256 ▸ w1.1) (h256 ▸ w2.1) h
            exact ⟨by rw [hv], hr⟩
        | string s => simp [nodeEnc] at h
        | symbol s => simp [nodeEnc] at h
        | normal h2 c2 => simp [nodeEnc] at h
    | string a =>
        cases e2 with
        | integer b => simp [nodeEnc] at h
        | real b => simp [nodeEnc] at h
        | string s =>
            simp only [nodeEnc, List.cons_append, List.cons_eq_cons, true_and,
              List.append_assoc] at h
            obtain ⟨hlen, h⟩ := varint_append_inj _ _ _ _ h
            obtain ⟨hval, hr⟩ := List.append_inj h hlen
            exact ⟨by rw [hval], hr⟩
        | symbol s => simp [nodeEnc] at h
        | normal h2 c2 => simp [nodeEnc] at h
    | symbol a =>
        cases e2 with
        | integer b => simp [nodeEnc] at h
        | real b => simp [nodeEnc] at h
        | string s => simp [nodeEnc] at h
        | symbol s =>
            simp only [nodeEnc, List.cons_append, List.cons_eq_cons, true_and,
              List.append_assoc] at h
            obtain ⟨hlen, h⟩ := varint_append_inj _ _ _ _ h
            obtain ⟨hval, hr⟩ := List.append_inj h hlen
            exact ⟨by rw [hval], hr⟩
        | normal h2 c2 => simp [nodeEnc] at h
    | normal h1 c1 =>
        cases e2 with
        | integer b => simp [nodeEnc] at h
        | real b => simp [nodeEnc] at h
        | string s => simp [nodeEnc] at h
        | symbol s => simp [nodeEnc] at h
        | normal h2 c2 =>
            simp only [nodeEnc, List.cons_append, List.cons_eq_cons, true_and,
              List.append_assoc] at h
            simp only [wfExpr, Bool.and_eq_true] at w1 w2
            obtain ⟨hlen, h⟩ := varint_append_inj _ _ _ _ h
            have hsh : sizeOf h1 < N := by
              have := sizeOf_head_lt h1 c1
              omega
            obtain ⟨hhead, h⟩ := ih h1 h2 _ _ hsh w1.1 w2.1 h
            obtain ⟨hc, hr⟩ := nodeEncList_append_inj_aux c1 c2 r1 r2
              (fun e hm e' r1' r2' we we' heq =>
                ih e e' r1' r2'
                  (by have := sizeOf_arg_lt e h1 c1 hm; omega) we we' heq)
              hlen w1.2 w2.2 h
            exact ⟨by rw [hhead, hc], hr⟩

/-- C3 (amended): encoding is a pure function of the tree (identical trees
yield byte-identical output) and is injective on the modeled value set when
expressions are compared by representation — reals by bit pattern; the one
deviation from the claim is that the structurally equal (`0.0 == -0.0`)
reals `+0.0` and `-0.0` encode to different byte sequences (see the
counterexample). -/
theorem C3_encoding_injective (e1 e2 : Expr) (h1 : wfExpr e1 = true)
    (h2 : wfExpr e2 = true) : asWxf e1 = asWxf e2 ↔ e1 = e2 := by
  constructor
  · intro h
    rw [asWxf_eq, asWxf_eq] at h
    have h' : nodeEnc e1 ++ [] = nodeEnc e2 ++ [] := by
      simpa using h
    exact (nodeEnc_append_inj (sizeOf e1 + 1) e1 e2 [] []
      (by omega) h1 h2 h').1
  · intro h
    rw [h]

theorem C3_encoding_injective_witness :
    wfExpr (.integer 5) = true
    ∧ wfExpr (.normal (.symbol (asciiBytes "System`Sin")) [.integer 1]) = true
    ∧ (asWxf (.integer 5) =
          asWxf (.normal (.symbol (asciiBytes "System`Sin")) [.integer 1])
        ↔ (Expr.integer 5) =
            .normal (.symbol (asciiBytes "System`Sin")) [.integer 1]) :=
  ⟨by decide, by decide, C3_encoding_injective _ _ (by decide) (by decide)⟩

/-- `Expr::tag` from `src/lib.rs`: `None` for number/string atoms, the
symbol itself for a symbol atom, and recursion into the head for a
`Normal`.  The returned symbol is its byte text. -/
def tag : Expr → Option (List Nat)
  | .integer _ => none
  | .real _ => none
  | .string _ => none
  | .symbol s => some s
  | .normal h _ => tag h

/-- The atom a `Normal`'s head chain ends in (the expression itself for an
atom). -/
def headAtom : Expr → Expr
  | .normal h _ => headAtom h
  | .integer n => .integer n
  | .real b => .real b
  | .string s => .string s
  | .symbol s => .symbol s

theorem tag_eq_headAtom (e : Expr) :
    tag e = (match headAtom e with | .symbol s => some s | _ => none) := by
  match e with
  | .integer n => rfl
  | .real b => rfl
  | .string s => rfl
  | .symbol s => rfl
  | .normal h c =>
      rw [tag, headAtom]
      exact tag_eq_headAtom h

/-- C6: `tag()` is `None` on Integer/Real/String atoms, `Some` of the
symbol itself on a Symbol atom, and recurses into the head on a Normal
node; hence the tag of a curried application `f[x][y]` is the tag of `f`,
and a Normal whose head chain ends in a non-symbol atom has tag `None`. -/
theorem C6_tag_behavior :
    (∀ n, tag (.integer n) = none)
    ∧ (∀ b, tag (.real b) = none)
    ∧ (∀ s, tag (.string s) = none)
    ∧ (∀ s, tag (.symbol s) = some s)
    ∧ (∀ h c, tag (.normal h c) = tag h)
    ∧ (∀ f c1 c2, tag (.normal (.normal f c1) c2) = tag f)
    ∧ (∀ e, tag e =
        (match headAtom e with | .symbol s => some s | _ => none)) :=
  ⟨fun _ => rfl, fun _ => rfl, fun _ => rfl, fun _ => rfl, fun _ _ => rfl,
    fun _ _ _ => rfl, tag_eq_headAtom⟩

/-- `Expr::normal_head` from `src/lib.rs`. -/
def normalHead : Expr → Option Expr
  | .normal h _ => some h
  | .symbol _ => none
  | .integer _ => none
  | .real _ => none
  | .string _ => none

/-- `Expr::normal_part` from `src/lib.rs` (`contents.get(index)`). -/
def normalPart (e : Expr) (index : Nat) : Option Expr :=
  match e with
  | .normal _ contents => contents[index]?
  | .symbol _ => none
  | .integer _ => none
  | .real _ => none
  | .string _ => none

/-- Expression is one of the four atom shapes (not a `Normal`). -/
def isAtom : Expr → Bool
  | .normal _ _ => false
  | _ => true

/-- C8: `normal_head()` returns the head of a Normal node and `None` on
every atom; `normal_part(i)` returns the `i`-th argument (zero-based, not
counting the head) when in bounds and `None` when out of bounds or on an
atom; both are total functions of their inputs (no panic). -/
theorem C8_normal_accessors :
    (∀ h c, normalHead (.normal h c) = some h)
    ∧ (∀ e, isAtom e = true → normalHead e = none)
    ∧ (∀ h c i (hlt : i < c.length),
        normalPart (.normal h c) i = some (c.get ⟨i, hlt⟩))
    ∧ (∀ h c i, c.length ≤ i → normalPart (.normal h c) i = none)
    ∧ (∀ e i, isAtom e = true → normalPart e i = none) := by
  refine ⟨fun _ _ => rfl, ?_, ?_, ?_, ?_⟩
  · intro e h
    cases e <;> first | rfl | simp [isAtom] at h
  · intro h c i hlt
    simp [normalPart, List.getElem?_eq_getElem hlt]
  · intro h c i hge
    simp [normalPart, List.getElem?_eq_none hge]
  · intro e i h
    cases e <;> first | rfl | simp [isAtom] at h

theorem C8_normal_accessors_witness :
    normalHead (.integer 3) = none
    ∧ normalPart (.normal (.integer 0) [.integer 7]) 0 = some (.integer 7)
    ∧ normalPart (.normal (.integer 0) [.integer 7]) 1 = none
    ∧ normalPart (.string [65]) 0 = none := by
  refine ⟨C8_normal_accessors.2.1 _ rfl, ?_, ?_, ?_⟩
  · have := C8_normal_accessors.2.2.1 (.integer 0) [.integer 7] 0 (by decide)
    simpa using this
  · exact C8_normal_accessors.2.2.2.1 (.integer 0) [.integer 7] 1 (by decide)
  · exact C8_normal_accessors.2.2.2.2 (.string [65]) 0 rfl

/-- `Number` from `src/number/mod.rs` (reals by bit pattern, as in the
expression model). -/
inductive Number where
  | integer (n : Int)
  | real (bits : Nat)

/-- `ordered_float::NotNan::new`: succeeds exactly on non-NaN values. -/
def notNanNew (r : Nat) : Option Nat :=
  if isNanBits r then none else some r

/-- `Number::real` from `src/number/mod.rs`; the `panic!("Number::real:
got NaN")` arm is modelled as `none`. -/
def numberReal (r : Nat) : Option Number :=
  match notNanNew r with
  | some v => some (.real v)
  | none => none

/-- C9: `Number::real(r)` panics exactly when `r` is NaN; on every non-NaN
value it returns `Number::Real` carrying exactly `r`, so a constructed Real
never contains NaN. -/
theorem C9_number_real (r : Nat) :
    (numberReal r = none ↔ isNanBits r = true)
    ∧ (isNanBits r = false → numberReal r = some (.real r))
    ∧ (∀ v, numberReal r = some v →
        ∃ b, v = .real b ∧ isNanBits b = false) := by
  refine ⟨?_, ?_, ?_⟩
  · constructor
    · intro h
      by_cases hn : isNanBits r
      · exact hn
      · simp [numberReal, notNanNew, hn] at h
    · intro h
      simp [numberReal, notNanNew, h]
  · intro h
    simp [numberReal, notNanNew, h]
  · intro v h
    by_cases hn : isNanBits r
    · simp [numberReal, notNanNew, hn] at h
    · simp [numberReal, notNanNew, hn] at h
      exact ⟨r, h.symm, by simpa using hn⟩

theorem C9_number_real_witness :
    (isNanBits 0 = false ∧ numberReal 0 = some (.real 0))
    ∧ (isNanBits (2047 * 2 ^ 52 + 1) = true
        ∧ numberReal (2047 * 2 ^ 52 + 1) = none) :=
  ⟨⟨by decide, (C9_number_real 0).2.1 (by decide)⟩,
    ⟨by decide, ((C9_number_real (2047 * 2 ^ 52 + 1)).1).mpr (by decide)⟩⟩

/-- `Expr::try_as_symbol` from `src/conversion.rs`. -/
def tryAsSymbol : Expr → Option (List Nat)
  | .symbol s => some s
  | .normal _ _ => none
  | .string _ => none
  | .integer _ => none
  | .real _ => none

/-- `Expr::try_as_bool` from `src/conversion.rs`. -/
def tryAsBool (e : Expr) : Option Bool :=
  match tryAsSymbol e with
  | none => none
  | some s =>
      if s = asciiBytes "System`True" then some true
      else if s = asciiBytes "System`False" then some false
      else none

/-- `impl From<bool> for Expr` from `src/conversion.rs`. -/
def fromBool : Bool → Expr
  | true => .symbol (asciiBytes "System`True")
  | false => .symbol (asciiBytes "System`False")

/-- C10: `Expr::from(b)` is the symbol `System`True`/`System`False`, and
`try_as_bool` inverts it: `try_as_bool(Expr::from(b)) == Some(b)`, and
`try_as_bool` yields `Some b` only on exactly those two symbol
expressions (every other expression gives `None`). -/
theorem C10_bool_roundtrip :
    fromBool true = .symbol (asciiBytes "System`True")
    ∧ fromBool false = .symbol (asciiBytes "System`False")
    ∧ (∀ b, tryAsBool (fromBool b) = some b)
    ∧ (∀ e b, tryAsBool e = some b → e = fromBool b) := by
  refine ⟨rfl, rfl, ?_, ?_⟩
  · intro b
    cases b <;> decide
  · intro e b h
    cases e with
    | symbol s =>
        simp only [tryAsBool, tryAsSymbol] at h
        by_cases h1 : s = asciiBytes "System`True"
        · rw [if_pos h1] at h
          cases h
          rw [h1]
          rfl
        · rw [if_neg h1] at h
          by_cases h2 : s = asciiBytes "System`False"
          · rw [if_pos h2] at h
            cases h
            rw [h2]
            rfl
          · rw [if_neg h2] at h
            cases h
    | integer n => simp [tryAsBool, tryAsSymbol] at h
    | real bits => simp [tryAsBool, tryAsSymbol] at h
    | string s => simp [tryAsBool, tryAsSymbol] at h
    | normal hd c => simp [tryAsBool, tryAsSymbol] at h

theorem C10_bool_roundtrip_witness :
    (Expr.symbol (asciiBytes "System`True")) = fromBool true :=
  C10_bool_roundtrip.2.2.2 (.symbol (asciiBytes "System`True")) true (by decide)

/-! ### Symbol grammar (`src/symbol/parse.rs`)

The nom combinators over `&str` input are embedded as functions from a
character list to an optional pair (remaining input, consumed span); nom's
`recognize` wrapping is the identity in this representation, and the
repetition combinators carry the fuel bound that nom realizes through its
zero-length-consumption check. -/

/-- The context mark character (grave accent). -/
def grave : Char := Char.ofNat 96

/-- A nom-style recognizing combinator: input to optional
(remaining, consumed). -/
abbrev Recog := List Char → Option (List Char × List Char)

/-- `nom::character::complete::alpha1`: longest nonempty prefix of ASCII
alphabetic characters. -/
def alpha1 : Recog := fun i =>
  if (i.takeWhile Char.isAlpha).isEmpty then none
  else some (i.dropWhile Char.isAlpha, i.takeWhile Char.isAlpha)

/-- `nom::character::complete::digit1`: longest nonempty prefix of ASCII
digits. -/
def digit1 : Recog := fun i =>
  if (i.takeWhile Char.isDigit).isEmpty then none
  else some (i.dropWhile Char.isDigit, i.takeWhile Char.isDigit)

/-- `nom::bytes::complete::tag` for a single-character tag. -/
def tagP (c : Char) : Recog := fun i =>
  match i with
  | [] => none
  | x :: xs => if x = c then some (xs, [c]) else none

/-- `nom::branch::alt` of two parsers. -/
def altP (p q : Recog) : Recog := fun i =>
  match p i with
  | some r => some r
  | none => q i

/-- `nom::sequence::pair`/`tuple` under `recognize`: both spans
concatenated. -/
def pairP (p q : Recog) : Recog := fun i =>
  match p i with
  | none => none
  | some (i1, c1) =>
      match q i1 with
      | none => none
      | some (i2, c2) => some (i2, c1 ++ c2)

/-- `nom::multi::many0` with explicit fuel; like nom, an iteration that
consumes nothing aborts the whole parse (here: the fuel/shrinking check
fails), which also bounds the recursion. -/
def many0F (p : Recog) : Nat → Recog
  | 0, _ => none
  | f + 1, i =>
      match p i with
      | none => some (i, [])
      | some (i1, c1) =>
          if i1.length < i.length then
            match many0F p f i1 with
            | none => none
            | some (i2, c2) => some (i2, c1 ++ c2)
          else none

/-- `nom::multi::many0`: the fuel `length + 1` is always sufficient since
every kept iteration consumes at least one character. -/
def many0 (p : Recog) : Recog := fun i => many0F p (i.length + 1) i

/-- `nom::multi::many1`: one mandatory application, then `many0`. -/
def many1 (p : Recog) : Recog := fun i =>
  match p i with
  | none => none
  | some (i1, c1) =>
      match many0 p i1 with
      | none => none
      | some (i2, c2) => some (i2, c1 ++ c2)

/-- `symbol_name` from `src/symbol/parse.rs`:
`recognize(tuple((many1(alt((alpha1, tag("$")))), many0(alt((digit1,
alpha1, tag("$")))))))`. -/
def symbol_name : Recog :=
  pairP (many1 (altP alpha1 (tagP '$')))
    (many0 (altP digit1 (altP alpha1 (tagP '$'))))

/-- `absolute_context_path`: `recognize(many1(complete(pair(symbol_name,
tag("`")))))`. -/
def absolute_context_path : Recog := many1 (pairP symbol_name (tagP grave))

/-- `relative_context_path`: `recognize(pair(tag("`"),
many1(complete(pair(symbol_name, tag("`"))))))`. -/
def relative_context_path : Recog :=
  pairP (tagP grave) (many1 (pairP symbol_name (tagP grave)))

/-- `absolute_symbol`: `recognize(pair(absolute_context_path,
symbol_name))`. -/
def absolute_symbol : Recog := pairP absolute_context_path symbol_name

/-- `SymbolRef::new` (`Symbol`'s validating constructor): parse an
absolute symbol and reject any trailing characters. -/
def SymbolRef_new (s : List Char) : Option (List Char) :=
  match absolute_symbol s with
  | none => none
  | some (rem, sym) => if rem.isEmpty then some sym else none

/-- `SymbolNameRef::new` (`SymbolName`'s validating constructor). -/
def SymbolNameRef_new (s : List Char) : Option (List Char) :=
  match symbol_name s with
  | none => none
  | some (rem, sym) => if rem.isEmpty then some sym else none

/-- `AbsoluteContextRef::new` (`Context`'s validating constructor). -/
def AbsoluteContextRef_new (s : List Char) : Option (List Char) :=
  match absolute_context_path s with
  | none => none
  | some (rem, _) => if rem.isEmpty then some s else none

/-- `RelativeContext::new` (`RelativeContext`'s validating constructor). -/
def RelativeContext_new (s : List Char) : Option (List Char) :=
  match relative_context_path s with
  | none => none
  | some (rem, _) => if rem.isEmpty then some s else none

/-- Whether the input is accepted as a `Symbol`. -/
def symbolAccepts (s : List Char) : Bool := (SymbolRef_new s).isSome

/-- Whether the input is accepted as a `SymbolName`. -/
def symbolNameAccepts (s : List Char) : Bool := (SymbolNameRef_new s).isSome

/-- Whether the input is accepted as a `Context`. -/
def contextAccepts (s : List Char) : Bool := (AbsoluteContextRef_new s).isSome

/-- Whether the input is accepted as a `RelativeContext`. -/
def relativeContextAccepts (s : List Char) : Bool :=
  (RelativeContext_new s).isSome

/-- Admissible first character of a name segment, per the spec: alphabetic
or `$`. -/
def pred1 (c : Char) : Bool := c.isAlpha || c == '$'

/-- Admissible subsequent character of a name segment, per the spec:
alphabetic, digit, or `$`. -/
def pred2 (c : Char) : Bool := c.isAlpha || c.isDigit || c == '$'

/-- A name segment per the spec's words: non-empty, first character
alphabetic or `$`, subsequent characters alphabetic, digits, or `$`. -/
def isNameSegment (s : List Char) : Bool :=
  match s with
  | [] => false
  | c :: cs => pred1 c && cs.all pred2

/-- The spec's context-path language: one or more (name segment followed
by the separator) pairs. -/
inductive IsContextPath : List Char → Prop where
  | one (seg : List Char) :
      isNameSegment seg = true → IsContextPath (seg ++ [grave])
  | cons (seg rest : List Char) :
      isNameSegment seg = true → IsContextPath rest →
      IsContextPath (seg ++ grave :: rest)

/-- The spec's absolute-symbol language: a context path followed by one
final name segment. -/
def IsAbsoluteSymbol (s : List Char) : Prop :=
  ∃ ctx final, IsContextPath ctx ∧ isNameSegment final = true ∧ s = ctx ++ final

/-- The spec's relative-context language: a leading separator followed by
one or more (name segment, separator) pairs. -/
def IsRelativeContextPath (s : List Char) : Prop :=
  ∃ rest, IsContextPath rest ∧ s = grave :: rest

/-- Zero or more (name segment, separator) pairs — the possibly-empty
variant used to reason about the `many0` loop. -/
inductive CtxChunks : List Char → Prop where
  | nil : CtxChunks []
  | cons (seg rest : List Char) :
      isNameSegment seg = true → CtxChunks rest → CtxChunks (seg ++ grave :: rest)

theorem takeWhile_all_append (p : Char → Bool) (l r : List Char)
    (h : l.all p = true) : (l ++ r).takeWhile p = l ++ r.takeWhile p := by
  induction l with
  | nil => rfl
  | cons c cs ih =>
      simp only [List.all_cons, Bool.and_eq_true] at h
      simp only [List.cons_append, List.takeWhile_cons_of_pos h.1]
      rw [ih h.2]

theorem dropWhile_all_append (p : Char → Bool) (l r : List Char)
    (h : l.all p = true) : (l ++ r).dropWhile p = r.dropWhile p := by
  induction l with
  | nil => rfl
  | cons c cs ih =>
      simp only [List.all_cons, Bool.and_eq_true] at h
      simp only [List.cons_append, List.dropWhile_cons_of_pos h.1]
      exact ih h.2

theorem all_takeWhile (p : Char → Bool) (l : List Char) :
    (l.takeWhile p).all p = true := by
  induction l with
  | nil => rfl
  | cons c cs ih =>
      by_cases h : p c
      · rw [List.takeWhile_cons_of_pos h]
        simp [h, ih]
      · rw [List.takeWhile_cons_of_neg h]
        rfl

theorem all_weaken (p q : Char → Bool) (l : List Char) (h : l.all p = true)
    (himp : ∀ x, p x = true → q x = true) : l.all q = true := by
  induction l with
  | nil => rfl
  | cons c cs ih =>
      simp only [List.all_cons, Bool.and_eq_true] at h ⊢
      exact ⟨himp c h.1, ih h.2⟩

theorem dropWhile_head_not (p : Char → Bool) (l : List Char) :
    l.dropWhile p = [] ∨
      ∃ x xs, l.dropWhile p = x :: xs ∧ p x = false := by
  induction l with
  | nil => exact Or.inl rfl
  | cons c cs ih =>
      by_cases h : p c
      · rw [List.dropWhile_cons_of_pos h]
        exact ih
      · rw [List.dropWhile_cons_of_neg h]
        exact Or.inr ⟨c, cs, rfl, by simpa using h⟩

theorem takeWhile_sub (p1 p2 : Char → Bool)
    (himp : ∀ c, p1 c = true → p2 c = true) (l : List Char) :
    l.takeWhile p1 ++ (l.dropWhile p1).takeWhile p2 = l.takeWhile p2
    ∧ (l.dropWhile p1).dropWhile p2 = l.dropWhile p2 := by
  induction l with
  | nil => exact ⟨rfl, rfl⟩
  | cons c cs ih =>
      by_cases h : p1 c
      · rw [List.takeWhile_cons_of_pos h, List.dropWhile_cons_of_pos h,
          List.takeWhile_cons_of_pos (himp c h),
          List.dropWhile_cons_of_pos (himp c h)]
        exact ⟨by rw [List.cons_append, ih.1], ih.2⟩
      · rw [List.takeWhile_cons_of_neg h, List.dropWhile_cons_of_neg h]
        exact ⟨rfl, rfl⟩

theorem many0F_chunks (p : Recog) (pred : Char → Bool)
    (hnil : p [] = none)
    (hneg : ∀ c cs, pred c = false → p (c :: cs) = none)
    (hpos : ∀ c cs, pred c = true → ∃ i1 c1, p (c :: cs) = some (i1, c1) ∧
        c1 ≠ [] ∧ c :: cs = c1 ++ i1 ∧ c1.all pred = true) :
    ∀ fuel i, i.length < fuel →
      many0F p fuel i = some (i.dropWhile pred, i.takeWhile pred) := by
  intro fuel
  induction fuel with
  | zero => intro i h; omega
  | succ f ih =>
      intro i hlen
      cases i with
      | nil => simp [many0F, hnil]
      | cons c cs =>
          by_cases hp : pred c
          · obtain ⟨i1, c1, hpeq, hne, hsplit, hall⟩ := hpos c cs hp
            have hlen1 : i1.length < (c :: cs).length := by
              rw [hsplit]
              cases c1 with
              | nil => exact absurd rfl hne
              | cons d ds => simp; omega
            simp only [many0F, hpeq]
            rw [if_pos hlen1, ih i1 (by omega)]
            rw [hsplit, takeWhile_all_append pred c1 i1 hall,
              dropWhile_all_append pred c1 i1 hall]
          · simp only [many0F, hneg c cs (by simpa using hp)]
            rw [List.takeWhile_cons_of_neg hp, List.dropWhile_cons_of_neg hp]

theorem many0_chunks (p : Recog) (pred : Char → Bool)
    (hnil : p [] = none)
    (hneg : ∀ c cs, pred c = false → p (c :: cs) = none)
    (hpos : ∀ c cs, pred c = true → ∃ i1 c1, p (c :: cs) = some (i1, c1) ∧
        c1 ≠ [] ∧ c :: cs = c1 ++ i1 ∧ c1.all pred = true)
    (i : List Char) :
    many0 p i = some (i.dropWhile pred, i.takeWhile pred) :=
  many0F_chunks p pred hnil hneg hpos (i.length + 1) i (by omega)

theorem many1_chunks (p : Recog) (pred : Char → Bool)
    (hnil : p [] = none)
    (hneg : ∀ c cs, pred c = false → p (c :: cs) = none)
    (hpos : ∀ c cs, pred c = true → ∃ i1 c1, p (c :: cs) = some (i1, c1) ∧
        c1 ≠ [] ∧ c :: cs = c1 ++ i1 ∧ c1.all pred = true)
    (i : List Char) :
    many1 p i =
      (match i with
        | [] => none
        | c :: _ =>
            if pred c then some (i.dropWhile pred, i.takeWhile pred)
            else none) := by
  cases i with
  | nil => simp [many1, hnil]
  | cons c cs =>
      by_cases hp : pred c
      · obtain ⟨i1, c1, hpeq, hne, hsplit, hall⟩ := hpos c cs hp
        simp only [many1, hpeq,
          many0_chunks p pred hnil hneg hpos i1, if_pos hp]
        rw [hsplit, takeWhile_all_append pred c1 i1 hall,
          dropWhile_all_append pred c1 i1 hall]
      · simp only [many1, hneg c cs (by simpa using hp)]
        rw [if_neg (by simpa using hp)]


theorem pred1_imp_pred2 (c : Char) (h : pred1 c = true) : pred2 c = true := by
  simp only [pred1, Bool.or_eq_true] at h
  simp only [pred2, Bool.or_eq_true]
  rcases h with h | h
  · exact Or.inl (Or.inl h)
  · exact Or.inr h

theorem takeWhile_nil_dropWhile (p : Char → Bool) (r : List Char)
    (h : r.takeWhile p = []) : r.dropWhile p = r := by
  cases r with
  | nil => rfl
  | cons x xs =>
      by_cases hp : p x
      · rw [List.takeWhile_cons_of_pos hp] at h
        cases h
      · exact List.dropWhile_cons_of_neg hp

theorem takeWhile_dropWhile_nil (p : Char → Bool) (l : List Char) :
    (l.dropWhile p).takeWhile p = [] := by
  rcases dropWhile_head_not p l with h | ⟨x, xs, heq, hx⟩
  · rw [h]; rfl
  · rw [heq]
    exact List.takeWhile_cons_of_neg (by simp [hx])

theorem p1chunk_nil : altP alpha1 (tagP '$') [] = none := rfl

theorem p1chunk_neg (c : Char) (cs : List Char) (h : pred1 c = false) :
    altP alpha1 (tagP '$') (c :: cs) = none := by
  have h1 : c.isAlpha = false := by
    cases hca : c.isAlpha
    · rfl
    · simp [pred1, hca] at h
  have h2 : ¬(c = '$') := by
    intro hc
    simp [pred1, hc] at h
  simp [altP, alpha1, tagP, List.takeWhile_cons, h1, h2]

theorem p1chunk_pos (c : Char) (cs : List Char) (h : pred1 c = true) :
    ∃ i1 c1, altP alpha1 (tagP '$') (c :: cs) = some (i1, c1) ∧
      c1 ≠ [] ∧ c :: cs = c1 ++ i1 ∧ c1.all pred1 = true := by
  by_cases ha : c.isAlpha
  · refine ⟨(c :: cs).dropWhile Char.isAlpha, (c :: cs).takeWhile Char.isAlpha,
      ?_, ?_, ?_, ?_⟩
    · simp [altP, alpha1, List.takeWhile_cons, ha]
    · rw [List.takeWhile_cons_of_pos ha]; simp
    · exact (List.takeWhile_append_dropWhile (p := Char.isAlpha)
        (l := c :: cs)).symm
    · exact all_weaken Char.isAlpha pred1 _ (all_takeWhile Char.isAlpha _)
        (fun x hx => by simp [pred1, hx])
  · have hd : c = '$' := by
      cases hdd : (c == '$')
      · simp [pred1, ha, hdd] at h
      · exact beq_iff_eq.mp hdd
    subst hd
    refine ⟨cs, ['$'], ?_, by simp, by simp, by simp [pred1]⟩
    have hna : Char.isAlpha '$' = false := by decide
    simp [altP, alpha1, tagP, List.takeWhile_cons, hna]

theorem p2chunk_nil : altP digit1 (altP alpha1 (tagP '$')) [] = none := rfl

theorem p2chunk_neg (c : Char) (cs : List Char) (h : pred2 c = false) :
    altP digit1 (altP alpha1 (tagP '$')) (c :: cs) = none := by
  have h1 : c.isAlpha = false := by
    cases hca : c.isAlpha
    · rfl
    · simp [pred2, hca] at h
  have h2 : c.isDigit = false := by
    cases hcd : c.isDigit
    · rfl
    · simp [pred2, hcd] at h
  have h3 : ¬(c = '$') := by
    intro hc
    simp [pred2, hc] at h
  simp [altP, alpha1, digit1, tagP, List.takeWhile_cons, h1, h2, h3]

theorem p2chunk_pos (c : Char) (cs : List Char) (h : pred2 c = true) :
    ∃ i1 c1, altP digit1 (altP alpha1 (tagP '$')) (c :: cs) = some (i1, c1) ∧
      c1 ≠ [] ∧ c :: cs = c1 ++ i1 ∧ c1.all pred2 = true := by
  by_cases hd : c.isDigit
  · refine ⟨(c :: cs).dropWhile Char.isDigit, (c :: cs).takeWhile Char.isDigit,
      ?_, ?_, ?_, ?_⟩
    · simp [altP, digit1, List.takeWhile_cons, hd]
    · rw [List.takeWhile_cons_of_pos hd]; simp
    · exact (List.takeWhile_append_dropWhile (p := Char.isDigit)
        (l := c :: cs)).symm
    · exact all_weaken Char.isDigit pred2 _ (all_takeWhile Char.isDigit _)
        (fun x hx => by simp [pred2, hx])
  · by_cases ha : c.isAlpha
    · have hnd : c.isDigit = false := by simpa using hd
      refine ⟨(c :: cs).dropWhile Char.isAlpha, (c :: cs).takeWhile Char.isAlpha,
        ?_, ?_, ?_, ?_⟩
      · simp [altP, digit1, alpha1, List.takeWhile_cons, ha, hnd]
      · rw [List.takeWhile_cons_of_pos ha]; simp
      · exact (List.takeWhile_append_dropWhile (p := Char.isAlpha)
          (l := c :: cs)).symm
      · exact all_weaken Char.isAlpha pred2 _ (all_takeWhile Char.isAlpha _)
          (fun x hx => by simp [pred2, hx])
    · have hdol : c = '$' := by
        cases hdd : (c == '$')
        · simp [pred2, ha, hd, hdd] at h
        · exact beq_iff_eq.mp hdd
      subst hdol
      refine ⟨cs, ['$'], ?_, by simp, by simp, by simp [pred2]⟩
      have hna : Char.isAlpha '$' = false := by decide
      have hnd : Char.isDigit '$' = false := by decide
      simp [altP, alpha1, digit1, tagP, List.takeWhile_cons, hna, hnd]

theorem many1_chunks_nil (p : Recog) (hnil : p [] = none) :
    many1 p [] = none := by
  simp [many1, hnil]

theorem many1_chunks_cons (p : Recog) (pred : Char → Bool)
    (hnil : p [] = none)
    (hneg : ∀ c cs, pred c = false → p (c :: cs) = none)
    (hpos : ∀ c cs, pred c = true → ∃ i1 c1, p (c :: cs) = some (i1, c1) ∧
        c1 ≠ [] ∧ c :: cs = c1 ++ i1 ∧ c1.all pred = true)
    (c : Char) (cs : List Char) :
    many1 p (c :: cs) =
      (if pred c then
        some ((c :: cs).dropWhile pred, (c :: cs).takeWhile pred)
      else none) := by
  rw [many1_chunks p pred hnil hneg hpos (c :: cs)]

theorem pairP_some (p q : Recog) (i i1 c1 i2 c2 : List Char)
    (hp : p i = some (i1, c1)) (hq : q i1 = some (i2, c2)) :
    pairP p q i = some (i2, c1 ++ c2) := by
  simp [pairP, hp, hq]

theorem pairP_none1 (p q : Recog) (i : List Char) (hp : p i = none) :
    pairP p q i = none := by
  simp [pairP, hp]

theorem pairP_none2 (p q : Recog) (i i1 c1 : List Char)
    (hp : p i = some (i1, c1)) (hq : q i1 = none) :
    pairP p q i = none := by
  simp [pairP, hp, hq]

theorem pairP_cases (p q : Recog) (i i2 c : List Char)
    (h : pairP p q i = some (i2, c)) :
    ∃ i1 c1 c2, p i = some (i1, c1) ∧ q i1 = some (i2, c2) ∧ c = c1 ++ c2 := by
  rw [pairP] at h
  cases hp : p i with
  | none => simp [hp] at h
  | some v =>
      obtain ⟨i1, c1⟩ := v
      simp only [hp] at h
      cases hq : q i1 with
      | none => simp [hq] at h
      | some w =>
          obtain ⟨i2', c2⟩ := w
          simp only [hq, Option.some.injEq, Prod.mk.injEq] at h
          obtain ⟨hi, hc⟩ := h
          subst hi
          exact ⟨i1, c1, c2, rfl, hq, hc.symm⟩

theorem symbol_name_eq_nil : symbol_name [] = none := rfl

theorem symbol_name_eq_cons (c : Char) (cs : List Char) :
    symbol_name (c :: cs) =
      (if pred1 c then
        some ((c :: cs).dropWhile pred2, (c :: cs).takeWhile pred2)
      else none) := by
  by_cases hp : pred1 c
  · have hm1 : many1 (altP alpha1 (tagP '$')) (c :: cs) =
        some ((c :: cs).dropWhile pred1, (c :: cs).takeWhile pred1) := by
      rw [many1_chunks_cons _ pred1 p1chunk_nil p1chunk_neg p1chunk_pos,
        if_pos hp]
    have hm0 := many0_chunks _ pred2 p2chunk_nil p2chunk_neg p2chunk_pos
      ((c :: cs).dropWhile pred1)
    obtain ⟨h1, h2⟩ := takeWhile_sub pred1 pred2 pred1_imp_pred2 (c :: cs)
    rw [symbol_name, pairP_some _ _ _ _ _ _ _ hm1 hm0, h1, h2, if_pos hp]
  · have hm1 : many1 (altP alpha1 (tagP '$')) (c :: cs) = none := by
      rw [many1_chunks_cons _ pred1 p1chunk_nil p1chunk_neg p1chunk_pos,
        if_neg (by simpa using hp)]
    rw [symbol_name, pairP_none1 _ _ _ hm1, if_neg hp]

theorem symbol_name_complete (c r : List Char) (hseg : isNameSegment c = true)
    (hbound : r.takeWhile pred2 = []) :
    symbol_name (c ++ r) = some (r, c) := by
  cases c with
  | nil => simp [isNameSegment] at hseg
  | cons hd tl =>
      simp only [isNameSegment, Bool.and_eq_true] at hseg
      have hall : (hd :: tl).all pred2 = true := by
        simp only [List.all_cons, Bool.and_eq_true]
        exact ⟨pred1_imp_pred2 hd hseg.1, hseg.2⟩
      have hcons : (hd :: tl) ++ r = hd :: (tl ++ r) := rfl
      rw [hcons, symbol_name_eq_cons, if_pos hseg.1, ← hcons,
        takeWhile_all_append pred2 _ _ hall,
        dropWhile_all_append pred2 _ _ hall, hbound,
        takeWhile_nil_dropWhile pred2 r hbound]
      simp

theorem symbol_name_sound (i r c : List Char)
    (h : symbol_name i = some (r, c)) :
    isNameSegment c = true ∧ i = c ++ r ∧ r.takeWhile pred2 = [] := by
  cases i with
  | nil => rw [symbol_name_eq_nil] at h; cases h
  | cons hd tl =>
      rw [symbol_name_eq_cons] at h
      by_cases hp : pred1 hd
      · rw [if_pos hp] at h
        simp only [Option.some.injEq, Prod.mk.injEq] at h
        obtain ⟨hr, hc⟩ := h
        subst hr
        subst hc
        refine ⟨?_, ?_, takeWhile_dropWhile_nil pred2 (hd :: tl)⟩
        · rw [List.takeWhile_cons_of_pos (pred1_imp_pred2 hd hp)]
          simp only [isNameSegment, Bool.and_eq_true]
          exact ⟨hp, all_takeWhile pred2 tl⟩
        · exact (List.takeWhile_append_dropWhile pred2 (hd :: tl)).symm
      · rw [if_neg hp] at h
        cases h

theorem q_nil : pairP symbol_name (tagP grave) [] = none :=
  pairP_none1 _ _ _ symbol_name_eq_nil

theorem pred2_grave : pred2 grave = false := by decide

theorem q_complete (seg r : List Char) (hseg : isNameSegment seg = true) :
    pairP symbol_name (tagP grave) (seg ++ grave :: r) =
      some (r, seg ++ [grave]) := by
  have hsn : symbol_name (seg ++ grave :: r) = some (grave :: r, seg) :=
    symbol_name_complete seg (grave :: r) hseg
      (List.takeWhile_cons_of_neg (by simp [pred2_grave]))
  have ht : tagP grave (grave :: r) = some (r, [grave]) := by simp [tagP]
  exact pairP_some _ _ _ _ _ _ _ hsn ht

theorem q_sound (i i1 c1 : List Char)
    (h : pairP symbol_name (tagP grave) i = some (i1, c1)) :
    ∃ seg, isNameSegment seg = true ∧ c1 = seg ++ [grave] ∧ i = c1 ++ i1 := by
  obtain ⟨im, seg, c2, hsn, htag, hc⟩ := pairP_cases _ _ _ _ _ h
  obtain ⟨hseg, hi, _⟩ := symbol_name_sound i im seg hsn
  cases im with
  | nil => simp [tagP] at htag
  | cons x xs =>
      simp only [tagP] at htag
      by_cases hx : x = grave
      · rw [if_pos hx] at htag
        simp only [Option.some.injEq, Prod.mk.injEq] at htag
        obtain ⟨hxs, hc2⟩ := htag
        subst hxs
        subst hx
        subst hc2
        subst hc
        subst hi
        exact ⟨seg, hseg, rfl, by simp⟩
      · rw [if_neg hx] at htag
        cases htag

theorem q_onlyseg (c : List Char) (hseg : isNameSegment c = true) :
    pairP symbol_name (tagP grave) c = none := by
  have hsn : symbol_name c = some ([], c) := by
    have := symbol_name_complete c [] hseg rfl
    simpa using this
  exact pairP_none2 _ _ _ _ _ hsn rfl

theorem segment_nonempty (seg : List Char) (h : isNameSegment seg = true) :
    seg ≠ [] := by
  intro hc
  subst hc
  simp [isNameSegment] at h

theorem many0F_q_complete (c : List Char) (hc : CtxChunks c) :
    ∀ (fuel : Nat) (r : List Char),
      pairP symbol_name (tagP grave) r = none → (c ++ r).length < fuel →
      many0F (pairP symbol_name (tagP grave)) fuel (c ++ r) = some (r, c) := by
  induction hc with
  | nil =>
      intro fuel r hr hlen
      cases fuel with
      | zero => exact absurd hlen (Nat.not_lt_zero _)
      | succ f => simp [many0F, hr]
  | cons seg rest hseg hrest ih =>
      intro fuel r hr hlen
      cases fuel with
      | zero => exact absurd hlen (Nat.not_lt_zero _)
      | succ f =>
          have hassoc : (seg ++ grave :: rest) ++ r = seg ++ grave :: (rest ++ r) := by
            simp
          have hq : pairP symbol_name (tagP grave) ((seg ++ grave :: rest) ++ r) =
              some (rest ++ r, seg ++ [grave]) := by
            rw [hassoc]
            exact q_complete seg (rest ++ r) hseg
          have hpos : 0 < seg.length :=
            List.length_pos.mpr (segment_nonempty seg hseg)
          have hlt : (rest ++ r).length < ((seg ++ grave :: rest) ++ r).length := by
            simp
            omega
          simp only [many0F, hq, if_pos hlt]
          rw [ih f r hr (by omega)]
          simp

theorem many0F_q_sound :
    ∀ (fuel : Nat) (i r c : List Char),
      many0F (pairP symbol_name (tagP grave)) fuel i = some (r, c) →
      CtxChunks c ∧ i = c ++ r ∧ pairP symbol_name (tagP grave) r = none := by
  intro fuel
  induction fuel with
  | zero => intro i r c h; simp [many0F] at h
  | succ f ih =>
      intro i r c h
      cases hq : pairP symbol_name (tagP grave) i with
      | none =>
          simp only [many0F, hq, Option.some.injEq, Prod.mk.injEq] at h
          obtain ⟨hr, hc⟩ := h
          subst hr
          subst hc
          exact ⟨CtxChunks.nil, by simp, hq⟩
      | some v =>
          obtain ⟨i1, c1⟩ := v
          simp only [many0F, hq] at h
          by_cases hlt : i1.length < i.length
          · rw [if_pos hlt] at h
            cases hm : many0F (pairP symbol_name (tagP grave)) f i1 with
            | none =>
                rw [hm] at h
                exact Option.noConfusion h
            | some w =>
                obtain ⟨i2, c2⟩ := w
                rw [hm] at h
                simp only [Option.some.injEq, Prod.mk.injEq] at h
                obtain ⟨hi2, hcc⟩ := h
                obtain ⟨hch, hi1, hqr⟩ := ih i1 i2 c2 hm
                obtain ⟨seg, hseg, hc1, hi⟩ := q_sound i i1 c1 hq
                refine ⟨?_, ?_, ?_⟩
                · rw [← hcc, hc1]
                  have hmassoc : (seg ++ [grave]) ++ c2 = seg ++ grave :: c2 := by
                    simp
                  rw [hmassoc]
                  exact CtxChunks.cons seg c2 hseg hch
                · rw [← hcc, ← hi2, hi, hi1]
                  simp
                · rw [← hi2]
                  exact hqr
          · rw [if_neg hlt] at h
            exact Option.noConfusion h

theorem path_of_chunks (rest : List Char) (hrest : CtxChunks rest) :
    ∀ seg, isNameSegment seg = true → IsContextPath (seg ++ grave :: rest) := by
  induction hrest with
  | nil => exact fun seg hseg => IsContextPath.one seg hseg
  | cons seg' rest' hseg' hrest' ih =>
      exact fun seg hseg => IsContextPath.cons seg _ hseg (ih seg' hseg')

theorem chunks_of_path (c : List Char) (hc : IsContextPath c) : CtxChunks c := by
  induction hc with
  | one seg hseg => exact CtxChunks.cons seg [] hseg CtxChunks.nil
  | cons seg rest hseg hrest ih => exact CtxChunks.cons seg rest hseg ih

theorem path_decomp (c : List Char) (hc : IsContextPath c) :
    ∃ seg rest, isNameSegment seg = true ∧ CtxChunks rest ∧
      c = seg ++ grave :: rest := by
  cases hc with
  | one seg hseg => exact ⟨seg, [], hseg, CtxChunks.nil, rfl⟩
  | cons seg rest hseg hrest =>
      exact ⟨seg, rest, hseg, chunks_of_path rest hrest, rfl⟩

theorem many1_q_complete (c r : List Char) (hc : IsContextPath c)
    (hr : pairP symbol_name (tagP grave) r = none) :
    many1 (pairP symbol_name (tagP grave)) (c ++ r) = some (r, c) := by
  obtain ⟨seg, rest, hseg, hrest, rfl⟩ := path_decomp c hc
  have hassoc : (seg ++ grave :: rest) ++ r = seg ++ grave :: (rest ++ r) := by
    simp
  have hq1 : pairP symbol_name (tagP grave) ((seg ++ grave :: rest) ++ r) =
      some (rest ++ r, seg ++ [grave]) := by
    rw [hassoc]
    exact q_complete seg (rest ++ r) hseg
  have hm : many0 (pairP symbol_name (tagP grave)) (rest ++ r) = some (r, rest) :=
    many0F_q_complete rest hrest ((rest ++ r).length + 1) r hr (by omega)
  simp only [many1, hq1, hm]
  simp

theorem many1_q_sound (i i1 c1 : List Char)
    (h : many1 (pairP symbol_name (tagP grave)) i = some (i1, c1)) :
    IsContextPath c1 ∧ i = c1 ++ i1
    ∧ pairP symbol_name (tagP grave) i1 = none := by
  rw [many1] at h
  cases hq : pairP symbol_name (tagP grave) i with
  | none =>
      rw [hq] at h
      exact Option.noConfusion h
  | some v =>
      obtain ⟨ia, ca⟩ := v
      simp only [hq] at h
      cases hm : many0 (pairP symbol_name (tagP grave)) ia with
      | none =>
          rw [hm] at h
          exact Option.noConfusion h
      | some w =>
          obtain ⟨ib, cb⟩ := w
          rw [hm] at h
          simp only [Option.some.injEq, Prod.mk.injEq] at h
          obtain ⟨hib, hcc⟩ := h
          obtain ⟨hch, hia, hqr⟩ := many0F_q_sound (ia.length + 1) ia ib cb hm
          obtain ⟨seg, hseg, hca, hi⟩ := q_sound i ia ca hq
          refine ⟨?_, ?_, ?_⟩
          · rw [← hcc, hca]
            have hmassoc : (seg ++ [grave]) ++ cb = seg ++ grave :: cb := by
              simp
            rw [hmassoc]
            exact path_of_chunks cb hch seg hseg
          · rw [← hcc, ← hib, hi, hia]
            simp
          · rw [← hib]
            exact hqr

theorem contextAccepts_iff (s : List Char) :
    contextAccepts s = true ↔ IsContextPath s := by
  constructor
  · intro h
    rcases habs : absolute_context_path s with _ | ⟨rem, c⟩
    · rw [contextAccepts, AbsoluteContextRef_new, habs] at h
      simp at h
    · rw [contextAccepts, AbsoluteContextRef_new, habs] at h
      cases rem with
      | cons x xs => simp at h
      | nil =>
          rw [absolute_context_path] at habs
          obtain ⟨hpath, hs, _⟩ := many1_q_sound s [] c habs
          rw [List.append_nil] at hs
          rwa [hs]
  · intro h
    have hcp : many1 (pairP symbol_name (tagP grave)) (s ++ []) = some ([], s) :=
      many1_q_complete s [] h q_nil
    rw [List.append_nil] at hcp
    have habs : absolute_context_path s = some ([], s) := by
      rw [absolute_context_path]
      exact hcp
    simp [contextAccepts, AbsoluteContextRef_new, habs]

theorem symbolAccepts_iff (s : List Char) :
    symbolAccepts s = true ↔ IsAbsoluteSymbol s := by
  constructor
  · intro h
    rcases habs : absolute_symbol s with _ | ⟨rem, c⟩
    · rw [symbolAccepts, SymbolRef_new, habs] at h
      simp at h
    · rw [symbolAccepts, SymbolRef_new, habs] at h
      cases rem with
      | cons x xs => simp at h
      | nil =>
          rw [absolute_symbol] at habs
          obtain ⟨im, c1, c2, hacp, hsn, hc⟩ := pairP_cases _ _ _ _ _ habs
          rw [absolute_context_path] at hacp
          obtain ⟨hpath, hs, _⟩ := many1_q_sound s im c1 hacp
          obtain ⟨hseg, him, _⟩ := symbol_name_sound im [] c2 hsn
          rw [List.append_nil] at him
          exact ⟨c1, c2, hpath, hseg, by rw [hs, him]⟩
  · rintro ⟨ctx, fin, hctx, hfin, rfl⟩
    have hacp : many1 (pairP symbol_name (tagP grave)) (ctx ++ fin) =
        some (fin, ctx) :=
      many1_q_complete ctx fin hctx (q_onlyseg fin hfin)
    have hsn : symbol_name fin = some ([], fin) := by
      have := symbol_name_complete fin [] hfin rfl
      simpa using this
    have habs : absolute_symbol (ctx ++ fin) = some ([], ctx ++ fin) := by
      rw [absolute_symbol]
      refine pairP_some _ _ _ _ _ _ _ ?_ hsn
      rw [absolute_context_path]
      exact hacp
    simp [symbolAccepts, SymbolRef_new, habs]

theorem symbolNameAccepts_iff (s : List Char) :
    symbolNameAccepts s = true ↔ isNameSegment s = true := by
  constructor
  · intro h
    rcases hsn : symbol_name s with _ | ⟨rem, c⟩
    · rw [symbolNameAccepts, SymbolNameRef_new, hsn] at h
      simp at h
    · rw [symbolNameAccepts, SymbolNameRef_new, hsn] at h
      cases rem with
      | cons x xs => simp at h
      | nil =>
          obtain ⟨hseg, hs, _⟩ := symbol_name_sound s [] c hsn
          rw [List.append_nil] at hs
          rwa [hs]
  · intro h
    have hsn : symbol_name s = some ([], s) := by
      have := symbol_name_complete s [] h rfl
      simpa using this
    simp [symbolNameAccepts, SymbolNameRef_new, hsn]

theorem relativeContextAccepts_iff (s : List Char) :
    relativeContextAccepts s = true ↔ IsRelativeContextPath s := by
  constructor
  · intro h
    rcases hrel : relative_context_path s with _ | ⟨rem, c⟩
    · rw [relativeContextAccepts, RelativeContext_new, hrel] at h
      simp at h
    · rw [relativeContextAccepts, RelativeContext_new, hrel] at h
      cases rem with
      | cons x xs => simp at h
      | nil =>
          rw [relative_context_path] at hrel
          obtain ⟨im, c1, c2, htag, hm1, hc⟩ := pairP_cases _ _ _ _ _ hrel
          cases s with
          | nil => simp [tagP] at htag
          | cons x xs =>
              simp only [tagP] at htag
              by_cases hx : x = grave
              · rw [if_pos hx] at htag
                simp only [Option.some.injEq, Prod.mk.injEq] at htag
                obtain ⟨him, hc1⟩ := htag
                obtain ⟨hpath, hxs2, _⟩ := many1_q_sound im [] c2 hm1
                rw [List.append_nil] at hxs2
                refine ⟨c2, hpath, ?_⟩
                rw [hx, him, hxs2]
              · rw [if_neg hx] at htag
                exact Option.noConfusion htag
  · rintro ⟨rest, hrest, rfl⟩
    have htag : tagP grave (grave :: rest) = some (rest, [grave]) := by
      simp [tagP]
    have hm1 : many1 (pairP symbol_name (tagP grave)) rest = some ([], rest) := by
      have := many1_q_complete rest [] hrest q_nil
      simpa using this
    have hrel : relative_context_path (grave :: rest) =
        some ([], [grave] ++ rest) := by
      rw [relative_context_path]
      exact pairP_some _ _ _ _ _ _ _ htag hm1
    simp [relativeContextAccepts, RelativeContext_new, hrel]

/-- C2: each validating constructor accepts exactly its grammar's language
— `Symbol` the absolute symbols (one or more name segments each followed
by the separator, then one final name segment), `SymbolName` a single bare
name segment, `Context` one or more (name segment, separator) pairs,
`RelativeContext` a leading separator followed by one or more such pairs —
where a name segment is non-empty, starts with an alphabetic character or
`$`, and continues with alphabetics, digits, or `$`; any input with
trailing characters beyond the match is rejected (the iffs quantify over
all inputs, so full consumption is part of the characterization).  The
listed seed inputs behave as the claim's table states. -/
theorem C2_symbol_grammar :
    (∀ s : List Char, symbolAccepts s = true ↔ IsAbsoluteSymbol s)
    ∧ (∀ s : List Char, symbolNameAccepts s = true ↔ isNameSegment s = true)
    ∧ (∀ s : List Char, contextAccepts s = true ↔ IsContextPath s)
    ∧ (∀ s : List Char,
        relativeContextAccepts s = true ↔ IsRelativeContextPath s)
    ∧ (symbolAccepts ("foo`bar".toList) = true
        ∧ symbolNameAccepts ("foo`bar".toList) = false
        ∧ contextAccepts ("foo`bar".toList) = false
        ∧ relativeContextAccepts ("foo`bar".toList) = false)
    ∧ (symbolAccepts ("foo".toList) = false
        ∧ symbolNameAccepts ("foo".toList) = true
        ∧ contextAccepts ("foo".toList) = false
        ∧ relativeContextAccepts ("foo".toList) = false)
    ∧ (symbolAccepts ("foo`".toList) = false
        ∧ symbolNameAccepts ("foo`".toList) = false
        ∧ contextAccepts ("foo`".toList) = true
        ∧ relativeContextAccepts ("foo`".toList) = false)
    ∧ (symbolAccepts ("`foo`".toList) = false
        ∧ symbolNameAccepts ("`foo`".toList) = false
        ∧ contextAccepts ("`foo`".toList) = false
        ∧ relativeContextAccepts ("`foo`".toList) = true)
    ∧ (symbolAccepts ("foo`5bar".toList) = false
        ∧ symbolNameAccepts ("foo`5bar".toList) = false
        ∧ contextAccepts ("foo`5bar".toList) = false
        ∧ relativeContextAccepts ("foo`5bar".toList) = false)
    ∧ (symbolAccepts ("5foo`bar".toList) = false
        ∧ symbolNameAccepts ("5foo`bar".toList) = false
        ∧ contextAccepts ("5foo`bar".toList) = false
        ∧ relativeContextAccepts ("5foo`bar".toList) = false)
    ∧ (symbolAccepts ("5foo".toList) = false
        ∧ symbolNameAccepts ("5foo".toList) = false
        ∧ contextAccepts ("5foo".toList) = false
        ∧ relativeContextAccepts ("5foo".toList) = false)
    ∧ (symbolAccepts ("foo_bar".toList) = false
        ∧ symbolNameAccepts ("foo_bar".toList) = false
        ∧ contextAccepts ("foo_bar".toList) = false
        ∧ relativeContextAccepts ("foo_bar".toList) = false) :=
  ⟨symbolAccepts_iff, symbolNameAccepts_iff, contextAccepts_iff,
    relativeContextAccepts_iff, by decide, by decide, by decide, by decide,
    by decide, by decide, by decide, by decide⟩

/-- `str::rfind` for a single character, as a character index (valid
symbols are ASCII, so character and byte indices coincide). -/
def rfindIdx (c : Char) : List Char → Option Nat
  | [] => none
  | x :: xs =>
      match rfindIdx c xs with
      | some i => some (i + 1)
      | none => if x = c then some 0 else none

/-- `SymbolRef::context` (`src/symbol.rs`): `rfind` the last grave, then
`split_at(last_grave + 1).0`; the `.expect` panic is modelled as `none`. -/
def symbolContext (s : List Char) : Option (List Char) :=
  match rfindIdx grave s with
  | none => none
  | some i => some (s.take (i + 1))

/-- `SymbolRef::symbol_name` (`src/symbol.rs`): the suffix after the last
grave, `split_at(last_grave + 1).1`. -/
def symbolNamePart (s : List Char) : Option (List Char) :=
  match rfindIdx grave s with
  | none => none
  | some i => some (s.drop (i + 1))

theorem rfind_none (c : Char) (r : List Char) (h : ∀ x ∈ r, x ≠ c) :
    rfindIdx c r = none := by
  induction r with
  | nil => rfl
  | cons x xs ih =>
      rw [rfindIdx, ih (fun y hy => h y (List.mem_cons_of_mem x hy))]
      exact if_neg (h x (List.mem_cons_self x xs))

theorem rfind_append_nomatch (c : Char) (l r : List Char)
    (h : ∀ x ∈ r, x ≠ c) :
    rfindIdx c (l ++ r) = rfindIdx c l := by
  induction l with
  | nil => simp [rfind_none c r h, rfindIdx]
  | cons x xs ih =>
      simp only [List.cons_append, rfindIdx, List.append_eq, ih]

theorem rfind_snoc (init : List Char) :
    rfindIdx grave (init ++ [grave]) = some init.length := by
  induction init with
  | nil => rfl
  | cons x xs ih =>
      simp only [List.cons_append, rfindIdx, List.append_eq, ih,
        List.length_cons]

theorem ctx_ends_grave (c : List Char) (hc : IsContextPath c) :
    ∃ init, c = init ++ [grave] := by
  induction hc with
  | one seg hseg => exact ⟨seg, rfl⟩
  | cons seg rest hseg hrest ih =>
      obtain ⟨init, hi⟩ := ih
      refine ⟨seg ++ grave :: init, ?_⟩
      rw [hi]
      simp

theorem seg_no_grave (fin : List Char) (h : isNameSegment fin = true) :
    ∀ x ∈ fin, x ≠ grave := by
  cases fin with
  | nil => intro x hx; cases hx
  | cons hd tl =>
      simp only [isNameSegment, Bool.and_eq_true] at h
      intro x hx hxg
      subst hxg
      rcases List.mem_cons.mp hx with h1 | h1
      · rw [← h1] at h
        have : pred1 grave = false := by decide
        rw [this] at h
        exact Bool.noConfusion h.1
      · have := List.all_eq_true.mp h.2 _ h1
        rw [pred2_grave] at this
        exact Bool.noConfusion this

/-- C5: on every validly constructed `Symbol`, `context()` is exactly the
prefix up to and including the last grave, `symbol_name()` exactly the
suffix after it; they concatenate back to the symbol text, the context
part ends in the separator and is a valid context, the name part contains
no separator and is a valid symbol name, and neither accessor panics (the
`rfind` always succeeds). -/
theorem C5_symbol_accessors (s : List Char) (h : symbolAccepts s = true) :
    ∃ i, rfindIdx grave s = some i
      ∧ symbolContext s = some (s.take (i + 1))
      ∧ symbolNamePart s = some (s.drop (i + 1))
      ∧ s.take (i + 1) ++ s.drop (i + 1) = s
      ∧ contextAccepts (s.take (i + 1)) = true
      ∧ symbolNameAccepts (s.drop (i + 1)) = true
      ∧ (s.take (i + 1)).getLast? = some grave
      ∧ (∀ x ∈ s.drop (i + 1), x ≠ grave) := by
  obtain ⟨ctx, fin, hctx, hfin, rfl⟩ := (symbolAccepts_iff s).mp h
  obtain ⟨init, hi⟩ := ctx_ends_grave ctx hctx
  subst hi
  have hnog : ∀ x ∈ fin, x ≠ grave := seg_no_grave fin hfin
  have hr : rfindIdx grave ((init ++ [grave]) ++ fin) = some init.length := by
    rw [rfind_append_nomatch grave _ fin hnog]
    exact rfind_snoc init
  have hlen : init.length + 1 = (init ++ [grave]).length := by simp
  have ht : ((init ++ [grave]) ++ fin).take (init.length + 1) =
      init ++ [grave] := by
    rw [hlen, List.take_left]
  have hd : ((init ++ [grave]) ++ fin).drop (init.length + 1) = fin := by
    rw [hlen, List.drop_left]
  have hr' : rfindIdx grave (init ++ grave :: fin) = some init.length := by
    simpa using hr
  refine ⟨init.length, hr, ?_, ?_, ?_, ?_, ?_, ?_, ?_⟩
  · simp [symbolContext, hr']
  · simp [symbolNamePart, hr']
  · exact List.take_append_drop _ _
  · rw [ht]
    exact (contextAccepts_iff _).mpr hctx
  · rw [hd]
    exact (symbolNameAccepts_iff _).mpr hfin
  · rw [ht]
    simp
  · rw [hd]
    exact hnog

theorem C5_symbol_accessors_witness :
    symbolAccepts ("foo`bar".toList) = true
    ∧ ∃ i, rfindIdx grave ("foo`bar".toList) = some i
      ∧ symbolContext ("foo`bar".toList) =
          some (("foo`bar".toList).take (i + 1))
      ∧ symbolNamePart ("foo`bar".toList) =
          some (("foo`bar".toList).drop (i + 1))
      ∧ ("foo`bar".toList).take (i + 1) ++ ("foo`bar".toList).drop (i + 1) =
          "foo`bar".toList
      ∧ contextAccepts (("foo`bar".toList).take (i + 1)) = true
      ∧ symbolNameAccepts (("foo`bar".toList).drop (i + 1)) = true
      ∧ (("foo`bar".toList).take (i + 1)).getLast? = some grave
      ∧ (∀ x ∈ ("foo`bar".toList).drop (i + 1), x ≠ grave) :=
  ⟨by decide, C5_symbol_accessors ("foo`bar".toList) (by decide)⟩

/-! ### Copy-on-write (`Expr::kind_mut`, `Rc::make_mut`)

A one-level heap model: allocations hold a strong count and an `ExprKind`
whose children are addresses of other allocations.  `Expr` handles are
addresses; `clone` bumps the count of the shared allocation, and
`kind_mut` follows `Rc::make_mut`: clone the `ExprKind` into a fresh
allocation when the count exceeds one (dropping one reference to the old
cell), mutate in place when uniquely owned. -/

/-- `ExprKind` with children by allocation address. -/
inductive RKind where
  | integer (n : Int)
  | real (bits : Nat)
  | str (s : List Nat)
  | symbol (s : List Nat)
  | normal (head : Nat) (contents : List Nat)

/-- One reference-counted allocation. -/
structure RCell where
  strong : Nat
  kind : RKind

/-- The heap: addresses to allocations. -/
abbrev Store := Nat → Option RCell

/-- Child addresses of a kind (head then arguments for a `Normal`). -/
def childAddrs : RKind → List Nat
  | .normal h cs => h :: cs
  | .integer _ => []
  | .real _ => []
  | .str _ => []
  | .symbol _ => []

/-- Live cells have at least one owner and only allocated children. -/
def ValidStore (st : Store) : Prop :=
  ∀ q c, st q = some c →
    1 ≤ c.strong ∧ ∀ ch ∈ childAddrs c.kind, (st ch).isSome = true

/-- `Expr::clone` (`Rc::clone`): bump the strong count; the new handle
aliases the same address. -/
def cloneHandle (st : Store) (a : Nat) : Store := fun q =>
  if q = a then
    match st a with
    | none => none
    | some c => some ⟨c.strong + 1, c.kind⟩
  else st q

/-- `Expr::kind_mut` (`Rc::make_mut`) followed by an arbitrary mutation
`g` of the exposed `&mut ExprKind`: if the allocation is shared, the kind
is cloned into the fresh address (the handle now points there and one
reference to the old cell is dropped); if uniquely owned, mutate in
place.  Returns the new store and the handle's new address. -/
def kindMut (st : Store) (a fresh : Nat) (g : RKind → RKind) :
    Store × Nat :=
  match st a with
  | none => (st, a)
  | some c =>
      if 1 < c.strong then
        (fun q =>
          if q = fresh then some ⟨1, g c.kind⟩
          else if q = a then some ⟨c.strong - 1, c.kind⟩
          else st q, fresh)
      else
        (fun q => if q = a then some ⟨c.strong, g c.kind⟩ else st q, a)

/-- Fuelled deep observation of the value reachable from a handle. -/
def deepRead (st : Store) : Nat → Nat → Option Expr
  | 0, _ => none
  | fuel + 1, a =>
      match st a with
      | none => none
      | some c =>
          match c.kind with
          | .integer n => some (.integer n)
          | .real b => some (.real b)
          | .str s => some (.string s)
          | .symbol s => some (.symbol s)
          | .normal h cs =>
              match deepRead st fuel h, cs.mapM (deepRead st fuel) with
              | some hh, some args => some (.normal hh args)
              | _, _ => none

theorem deepRead_frame (st st' : Store) (fresh : Nat)
    (hfresh : st fresh = none)
    (hkinds : ∀ q, q ≠ fresh → (st' q).map RCell.kind = (st q).map RCell.kind)
    (hvalid : ValidStore st) :
    ∀ fuel a, a ≠ fresh → deepRead st' fuel a = deepRead st fuel a := by
  intro fuel
  induction fuel with
  | zero => intro a _; rfl
  | succ f ih =>
      intro a ha
      have hk := hkinds a ha
      cases hsa : st a with
      | none =>
          rw [hsa] at hk
          have hsb : st' a = none := by
            cases hsb : st' a with
            | none => rfl
            | some c' => rw [hsb] at hk; simp at hk
          simp [deepRead, hsa, hsb]
      | some c =>
          rw [hsa] at hk
          obtain ⟨c', hsb, hkind⟩ :
              ∃ c', st' a = some c' ∧ c'.kind = c.kind := by
            cases hsb : st' a with
            | none => rw [hsb] at hk; simp at hk
            | some c' =>
                rw [hsb] at hk
                simp at hk
                exact ⟨c', rfl, hk⟩
          have hch := (hvalid a c hsa).2
          have hlist : ∀ (l : List Nat), (∀ ch ∈ l, (st ch).isSome = true) →
              l.mapM (deepRead st' f) = l.mapM (deepRead st f) := by
            intro l
            induction l with
            | nil => intro _; rfl
            | cons x xs ihl =>
                intro hl
                have hxf : x ≠ fresh := by
                  intro hh
                  subst hh
                  have := hl x (List.mem_cons_self x xs)
                  rw [hfresh] at this
                  simp at this
                rw [List.mapM_cons, List.mapM_cons, ih x hxf,
                  ihl (fun y hy => hl y (List.mem_cons_of_mem x hy))]
          cases hck : c.kind with
          | integer n => simp [deepRead, hsa, hsb, hkind, hck]
          | real b => simp [deepRead, hsa, hsb, hkind, hck]
          | str s => simp [deepRead, hsa, hsb, hkind, hck]
          | symbol s => simp [deepRead, hsa, hsb, hkind, hck]
          | normal h cs =>
              rw [hck] at hch
              have hhf : h ≠ fresh := by
                intro hh
                subst hh
                have := hch h (List.mem_cons_self h cs)
                rw [hfresh] at this
                simp at this
              simp only [deepRead, hsa, hsb, hkind, hck]
              rw [ih h hhf,
                hlist cs (fun y hy => hch y (List.mem_cons_of_mem h hy))]

/-- C7: with `a = b.clone()` (two handles, one allocation), mutating
through `a`'s `kind_mut` path always clones into a fresh allocation, so
the value observed through `b` — both the cell it points to and the deep
value reachable from it — is unchanged; and in general `kind_mut` clones
the `ExprKind` exactly when the allocation has more than one owner,
mutating in place only when uniquely owned. -/
theorem C7_copy_on_write :
    (∀ (st : Store) (b fresh : Nat) (g : RKind → RKind) (c : RCell),
      ValidStore st → st b = some c → st fresh = none →
      (kindMut (cloneHandle st b) b fresh g).2 = fresh
      ∧ ((kindMut (cloneHandle st b) b fresh g).1 b).map RCell.kind =
          some c.kind
      ∧ (kindMut (cloneHandle st b) b fresh g).1 fresh = some ⟨1, g c.kind⟩
      ∧ (∀ q, q ≠ fresh →
          ((kindMut (cloneHandle st b) b fresh g).1 q).map RCell.kind =
            (st q).map RCell.kind)
      ∧ (∀ fuel, deepRead (kindMut (cloneHandle st b) b fresh g).1 fuel b =
          deepRead st fuel b))
    ∧ (∀ (st : Store) (p fresh : Nat) (g : RKind → RKind) (c : RCell),
        st p = some c → st fresh = none → 1 < c.strong →
        (kindMut st p fresh g).2 = fresh
        ∧ (kindMut st p fresh g).1 p = some ⟨c.strong - 1, c.kind⟩
        ∧ (kindMut st p fresh g).1 fresh = some ⟨1, g c.kind⟩)
    ∧ (∀ (st : Store) (p fresh : Nat) (g : RKind → RKind) (c : RCell),
        st p = some c → st fresh = none → c.strong ≤ 1 →
        (kindMut st p fresh g).2 = p
        ∧ (kindMut st p fresh g).1 p = some ⟨c.strong, g c.kind⟩
        ∧ (kindMut st p fresh g).1 fresh = none) := by
  refine ⟨?_, ?_, ?_⟩
  · intro st b fresh g c hvalid hb hfresh
    have hbf : b ≠ fresh := by
      intro h
      rw [h, hfresh] at hb
      cases hb
    have hstrong : 1 ≤ c.strong := (hvalid b c hb).1
    have hst2b : cloneHandle st b b = some ⟨c.strong + 1, c.kind⟩ := by
      simp [cloneHandle, hb]
    have hst2q : ∀ q, q ≠ b → cloneHandle st b q = st q := by
      intro q hq
      simp [cloneHandle, hq]
    have hkm : kindMut (cloneHandle st b) b fresh g =
        (fun q =>
          if q = fresh then some ⟨1, g c.kind⟩
          else if q = b then some ⟨c.strong + 1 - 1, c.kind⟩
          else cloneHandle st b q, fresh) := by
      simp only [kindMut, hst2b]
      rw [if_pos (by omega)]
    have hframe : ∀ q, q ≠ fresh →
        ((kindMut (cloneHandle st b) b fresh g).1 q).map RCell.kind =
          (st q).map RCell.kind := by
      intro q hq
      rw [hkm]
      simp only
      rw [if_neg hq]
      by_cases hqb : q = b
      · subst hqb
        rw [if_pos rfl, hb]
        rfl
      · rw [if_neg hqb, hst2q q hqb]
    refine ⟨by rw [hkm], ?_, ?_, hframe, ?_⟩
    · rw [hkm]
      simp [hbf]
    · rw [hkm]
      simp
    · intro fuel
      exact deepRead_frame st _ fresh hfresh hframe hvalid fuel b hbf
  · intro st p fresh g c hp hfresh hgt
    have hpf : p ≠ fresh := by
      intro h
      rw [h, hfresh] at hp
      cases hp
    have hkm : kindMut st p fresh g =
        (fun q =>
          if q = fresh then some ⟨1, g c.kind⟩
          else if q = p then some ⟨c.strong - 1, c.kind⟩
          else st q, fresh) := by
      simp only [kindMut, hp]
      rw [if_pos hgt]
    refine ⟨by rw [hkm], ?_, ?_⟩
    · rw [hkm]
      simp [hpf]
    · rw [hkm]
      simp
  · intro st p fresh g c hp hfresh hle
    have hpf : p ≠ fresh := by
      intro h
      rw [h, hfresh] at hp
      cases hp
    have hkm : kindMut st p fresh g =
        (fun q => if q = p then some ⟨c.strong, g c.kind⟩ else st q, p) := by
      simp only [kindMut, hp]
      rw [if_neg (by omega)]
    refine ⟨by rw [hkm], ?_, ?_⟩
    · rw [hkm]
      simp
    · rw [hkm]
      simp only
      rw [if_neg (fun h => hpf h.symm), hfresh]

/-- A one-cell heap used to instantiate the copy-on-write theorem. -/
def testStore : Store := fun q =>
  if q = 0 then some ⟨1, RKind.integer 5⟩ else none

theorem testStore_valid : ValidStore testStore := by
  intro q c h
  by_cases hq : q = 0
  · subst hq
    simp [testStore] at h
    rw [← h]
    exact ⟨le_refl 1, by simp [childAddrs]⟩
  · simp [testStore, hq] at h

theorem C7_copy_on_write_witness :
    (kindMut (cloneHandle testStore 0) 0 1 (fun _ => RKind.integer 9)).2 = 1
    ∧ ((kindMut (cloneHandle testStore 0) 0 1
          (fun _ => RKind.integer 9)).1 0).map RCell.kind =
        some (RKind.integer 5)
    ∧ (kindMut (cloneHandle testStore 0) 0 1
          (fun _ => RKind.integer 9)).1 1 = some ⟨1, RKind.integer 9⟩
    ∧ deepRead (kindMut (cloneHandle testStore 0) 0 1
          (fun _ => RKind.integer 9)).1 3 0 = deepRead testStore 3 0 := by
  have h := C7_copy_on_write.1 testStore 0 1 (fun _ => RKind.integer 9)
    ⟨1, RKind.integer 5⟩ testStore_valid rfl rfl
  exact ⟨h.1, h.2.1, h.2.2.1, h.2.2.2.2 3⟩
